import Mathlib

/-
Verification of the RSU tax computation engine (src/rsu.py) against its
natural-language specification.

Shallow embedding conventions:
- Python floats are modelled as exact rationals (ℚ); Python ints as ℤ.
- Dates (datetime at midnight, as produced by strptime with a day-level
  format) are modelled as ℤ ordinal days, so date subtraction yields the
  detention duration in days, and timedelta(days = n) is the integer n.
- A Python function that can raise models its result as Option / Except:
  a raised KeyError / ZeroDivisionError / AssertionError is none / error.
-/

/-- Python's builtin round() on an exact rational: round half to even
(banker's rounding).  Used for the grouping key `int(round(x * 1000))`. -/
def pyRound (q : ℚ) : ℤ :=
  if q - ⌊q⌋ < 1/2 then ⌊q⌋
  else if 1/2 < q - ⌊q⌋ then ⌊q⌋ + 1
  else if 2 ∣ ⌊q⌋ then ⌊q⌋ else ⌊q⌋ + 1

/-- src/rsu.py `TransactionDetails` (lines 72-83). -/
structure TransactionDetails where
  num_shares : ℤ
  vest_date : ℤ
  vest_price_usd : ℚ
  sale_date : ℤ
  sale_price_usd : ℚ
deriving DecidableEq

/-- src/rsu.py `TransactionDetailsProcessed` (lines 86-125). -/
structure TransactionDetailsProcessed where
  num_shares : ℤ
  vest_date : ℤ
  vest_price_usd : ℚ
  sale_date : ℤ
  sale_price_usd : ℚ
  vest_exchange_rate : ℚ
  vest_price_eur : ℚ
  sale_exchange_rate : ℚ
  sale_price_eur : ℚ
  capital_gain_eur : ℚ
  total_vest_gain_eur : ℚ
  total_capital_gain_eur : ℚ
  total_sale_price_eur : ℚ
  detention : ℤ
  eligible_for_tax_relief_50p : Bool
  eligible_for_tax_relief_65p : Bool
  taxe_relief_eur : ℚ
  total_corrected_vest_gain_eur : ℚ
  total_corrected_capital_gain_eur : ℚ
deriving DecidableEq

/-- src/rsu.py `TaxSummary` (lines 128-152). -/
structure TaxSummary where
  total_vest_gain_eur : ℚ
  total_capital_gain_eur : ℚ
  total_sale_price_eur : ℚ
  total_tax_relief_eur : ℚ
  total_corrected_vest_gain_eur : ℚ
  total_corrected_capital_gain_eur : ℚ
  social_contributions_on_vest_gain : ℚ
  tax_on_vest_gain : ℚ
  tax_on_capital_gain : ℚ
  total_tax : ℚ
  total_tax_rate : ℚ
deriving DecidableEq

/-- `minimum_detention_50p = timedelta(days=2 * 365)` (line 280), in days. -/
def minimum_detention_50p : ℤ := 2 * 365

/-- `minimum_detention_65p = timedelta(days=8 * 365)` (line 281), in days. -/
def minimum_detention_65p : ℤ := 8 * 365

/-- The loss-offset block of `process_transaction` (lines 291-305):
given the totals, returns the pair
(total_corrected_vest_gain_eur, total_corrected_capital_gain_eur). -/
def corrected_gains (total_vest_gain_eur total_capital_gain_eur : ℚ) : ℚ × ℚ :=
  if total_capital_gain_eur < 0 then
    if total_vest_gain_eur ≥ |total_capital_gain_eur| then
      (total_capital_gain_eur + total_vest_gain_eur, 0)
    else
      (0, total_vest_gain_eur + total_capital_gain_eur)
  else
    (total_vest_gain_eur, total_capital_gain_eur)

/-- The body of `process_transaction` (lines 280-340) once both exchange
rates have been retrieved successfully. -/
def mk_processed (src : TransactionDetails)
    (vest_exchange_rate sale_exchange_rate : ℚ) : TransactionDetailsProcessed :=
  let vest_price_eur := src.vest_price_usd / vest_exchange_rate
  let sale_price_eur := src.sale_price_usd / sale_exchange_rate
  let capital_gain_eur := sale_price_eur - vest_price_eur
  let total_vest_gain_eur := src.num_shares * vest_price_eur
  let total_capital_gain_eur := src.num_shares * capital_gain_eur
  let total_sale_price_eur := src.num_shares * sale_price_eur
  let corrected := corrected_gains total_vest_gain_eur total_capital_gain_eur
  let detention := src.sale_date - src.vest_date
  let eligible_for_tax_relief_50p : Bool := detention > minimum_detention_50p
  let eligible_for_tax_relief_65p : Bool := detention > minimum_detention_65p
  let tax_relief : ℚ :=
    if eligible_for_tax_relief_65p then 0.65 * corrected.1
    else if eligible_for_tax_relief_50p then 0.5 * corrected.1
    else 0
  { num_shares := src.num_shares
    vest_date := src.vest_date
    vest_price_usd := src.vest_price_usd
    sale_date := src.sale_date
    sale_price_usd := src.sale_price_usd
    vest_exchange_rate := vest_exchange_rate
    vest_price_eur := vest_price_eur
    sale_exchange_rate := sale_exchange_rate
    sale_price_eur := sale_price_eur
    capital_gain_eur := capital_gain_eur
    total_vest_gain_eur := total_vest_gain_eur
    total_capital_gain_eur := total_capital_gain_eur
    total_sale_price_eur := total_sale_price_eur
    detention := detention
    eligible_for_tax_relief_50p := eligible_for_tax_relief_50p
    eligible_for_tax_relief_65p := eligible_for_tax_relief_65p
    taxe_relief_eur := tax_relief
    total_corrected_vest_gain_eur := corrected.1
    total_corrected_capital_gain_eur := corrected.2 }

/-- src/rsu.py `process_transaction` (lines 264-340).  The exchange-rate
table is a partial map from a date to a rate: `none` models the KeyError
raised by `get_euro_dollar_rate` for a missing date, and a zero rate (which
would make the Python division raise ZeroDivisionError) also yields none. -/
def process_transaction (src : TransactionDetails)
    (get_euro_dollar_rate : ℤ → Option ℚ) : Option TransactionDetailsProcessed :=
  match get_euro_dollar_rate src.vest_date, get_euro_dollar_rate src.sale_date with
  | some vest_exchange_rate, some sale_exchange_rate =>
    if vest_exchange_rate = 0 ∨ sale_exchange_rate = 0 then none
    else some (mk_processed src vest_exchange_rate sale_exchange_rate)
  | _, _ => none

/-- src/rsu.py `process_all_transactions` (lines 343-354): the list
comprehension processes each transaction in order; a raised exception
anywhere aborts the whole computation. -/
def process_all_transactions (transactions : List TransactionDetails)
    (rate : ℤ → Option ℚ) : Option (List TransactionDetailsProcessed) :=
  match transactions with
  | [] => some []
  | tr :: rest =>
    match process_transaction tr rate, process_all_transactions rest rate with
    | some p, some ps => some (p :: ps)
    | _, _ => none

/-- src/rsu.py `generate_summary` (lines 357-405).  The unguarded division
`total_taxes / total_sale_price_eur` raises ZeroDivisionError in Python
when the divisor is zero, modelled as none. -/
def generate_summary (trs : List TransactionDetailsProcessed) (mtr : ℚ) :
    Option TaxSummary :=
  let total_vest_gain_eur := (trs.map (·.total_vest_gain_eur)).sum
  let total_capital_gain_eur := (trs.map (·.total_capital_gain_eur)).sum
  let total_sale_price_eur := (trs.map (·.total_sale_price_eur)).sum
  let total_tax_relief_eur := (trs.map (·.taxe_relief_eur)).sum
  let total_corrected_vest_gain_eur :=
    (trs.map (·.total_corrected_vest_gain_eur)).sum
  let total_corrected_capital_gain_eur :=
    (trs.map (·.total_corrected_capital_gain_eur)).sum
  let social_contributions_on_vest_gain :=
    17.2 / 100 * total_corrected_vest_gain_eur
  let tax_on_vest_gain :=
    mtr * (total_corrected_vest_gain_eur - total_tax_relief_eur)
  let tax_on_capital_gain := 30 / 100 * total_corrected_capital_gain_eur
  let total_taxes :=
    social_contributions_on_vest_gain + tax_on_vest_gain + tax_on_capital_gain
  if total_sale_price_eur = 0 then none
  else some
    { total_vest_gain_eur := total_vest_gain_eur
      total_capital_gain_eur := total_capital_gain_eur
      total_sale_price_eur := total_sale_price_eur
      total_tax_relief_eur := total_tax_relief_eur
      total_corrected_vest_gain_eur := total_corrected_vest_gain_eur
      total_corrected_capital_gain_eur := total_corrected_capital_gain_eur
      social_contributions_on_vest_gain := social_contributions_on_vest_gain
      tax_on_vest_gain := tax_on_vest_gain
      tax_on_capital_gain := tax_on_capital_gain
      total_tax := total_taxes
      total_tax_rate := total_taxes / total_sale_price_eur }

/-- The grouping key of `group_transactions` (lines 235-237):
`(vest_date, sale_date, int(round(sale_price_usd * 1000)), int(round(vest_price_usd * 1000)))`. -/
def transactionKey (t : TransactionDetails) : ℤ × ℤ × ℤ × ℤ :=
  (t.vest_date, t.sale_date, pyRound (t.sale_price_usd * 1000),
    pyRound (t.vest_price_usd * 1000))

/-- The distinct elements of a list in order of first occurrence: the key
iteration order of the insertion-ordered Python dict built by
`grouped_transactions[key].append(transaction)` (lines 230-238). -/
def firstKeys : List (ℤ × ℤ × ℤ × ℤ) → List (ℤ × ℤ × ℤ × ℤ)
  | [] => []
  | k :: ks => k :: (firstKeys ks).filter (fun k2 => k2 ≠ k)

/-- The members of one merge group: all input transactions carrying the
given key, in input order (the append order of the Python dict's lists). -/
def keyGroup (ts : List TransactionDetails) (k : ℤ × ℤ × ℤ × ℤ) :
    List TransactionDetails :=
  ts.filter (fun t => transactionKey t = k)

/-- `grouped_transactions.values()` (line 242): the merge groups in key
insertion order, each group holding its members in input order. -/
def groupsOf (ts : List TransactionDetails) : List (List TransactionDetails) :=
  (firstKeys (ts.map transactionKey)).map (keyGroup ts)

/-- The body of the reduction loop of `group_transactions` (lines 243-259)
for one group: a group of size 1 passes through unchanged; a larger group is
checked for price consistency (a failed assert raises, modelled as error)
and merged into a single transaction with summed shares and the first
member's date and price fields. -/
def reduceGroup : List TransactionDetails → Except String TransactionDetails
  | [] => Except.error "empty group"
  | t0 :: rest =>
    if rest.isEmpty then Except.ok t0
    else if ((t0 :: rest).all fun tr => |tr.vest_price_usd - t0.vest_price_usd| < 1/100) &&
            ((t0 :: rest).all fun tr => |tr.sale_price_usd - t0.sale_price_usd| < 1/100) then
      Except.ok
        { num_shares := ((t0 :: rest).map (·.num_shares)).sum
          vest_date := t0.vest_date
          vest_price_usd := t0.vest_price_usd
          sale_date := t0.sale_date
          sale_price_usd := t0.sale_price_usd }
    else Except.error "InconsistentLotError"

/-- The reduction loop over all groups, in order; the first failed assert
aborts the whole call. -/
def reduceGroups : List (List TransactionDetails) →
    Except String (List TransactionDetails)
  | [] => Except.ok []
  | g :: gs =>
    match reduceGroup g, reduceGroups gs with
    | Except.ok t, Except.ok ts => Except.ok (t :: ts)
    | Except.error e, _ => Except.error e
    | _, Except.error e => Except.error e

/-- src/rsu.py `group_transactions` (lines 217-261). -/
def group_transactions (transactions : List TransactionDetails) :
    Except String (List TransactionDetails) :=
  reduceGroups (groupsOf transactions)

/-- One cell of the USD column of the exchange-rate CSV: either a published
rate or the `-` marker used on non-trading days. -/
inductive RateEntry
  | dash
  | val (r : ℚ)
deriving DecidableEq

/-- The first published value in a list of cells (the next valid
observation that pandas bfill propagates backward onto a gap). -/
def nextValidEntry : List RateEntry → Option ℚ
  | [] => none
  | RateEntry.dash :: rest => nextValidEntry rest
  | RateEntry.val r :: _ => some r

/-- `df_usd[usd_column].replace("-", method="bfill")` (line 46): every `-`
cell is replaced by the next published value further down the column, in
row order; a `-` with no later value is left unchanged. -/
def bfillEntries : List RateEntry → List RateEntry
  | [] => []
  | RateEntry.dash :: rest =>
    (match nextValidEntry rest with
     | some r => RateEntry.val r
     | none => RateEntry.dash) :: bfillEntries rest
  | RateEntry.val r :: rest => RateEntry.val r :: bfillEntries rest

/-- `.astype(float)` (line 47): parsing the filled column to numbers; a
remaining `-` makes the conversion raise, modelled as none. -/
def entriesToRates : List RateEntry → Option (List ℚ)
  | [] => some []
  | RateEntry.val r :: rest => (entriesToRates rest).map (fun rs => r :: rs)
  | RateEntry.dash :: _ => none

/-- src/rsu.py `_load_exchange_rate_data` (lines 36-52) on the already
adapted rows (date, cell) of the CSV after the 5 header rows are dropped:
bfill the USD column, parse it, and pair it back with the date column to
build the `usd_change_rate_by_day` table. -/
def load_exchange_rate_data (rows : List (ℤ × RateEntry)) :
    Option (List (ℤ × ℚ)) :=
  (entriesToRates (bfillEntries (rows.map Prod.snd))).map
    (fun rs => (rows.map Prod.fst).zip rs)

/-- Dictionary lookup in `usd_change_rate_by_day` (line 69): rows are
inserted in order and a later row for the same date overwrites an earlier
one, so the lookup finds the last matching row. -/
def rateLookup (table : List (ℤ × ℚ)) (d : ℤ) : Option ℚ :=
  List.lookup d table.reverse

/-- `ExchangeRateData.get_euro_dollar_rate` (lines 54-69) composed with the
loader: the rate the program uses for a date, none for a KeyError. -/
def getRate (rows : List (ℤ × RateEntry)) (d : ℤ) : Option ℚ :=
  (load_exchange_rate_data rows).bind (fun table => rateLookup table d)

/-- Modelled from the spec: the gap-filling policy the specification
prescribes (section 4.1) assigns an absent date "the next available
published rate backward ... (i.e., a Saturday/Sunday takes the following
Monday's rate)".  This computes, among the rows strictly later in calendar
time that carry a published rate, the one with the earliest date. -/
def specNextLaterRate (rows : List (ℤ × RateEntry)) (d : ℤ) : Option ℚ :=
  (rows.filterMap (fun p =>
    match p.2 with
    | RateEntry.val r => if d < p.1 then some (p.1, r) else none
    | RateEntry.dash => none)).foldl
    (fun acc p =>
      match acc with
      | none => some p
      | some q => if p.1 < q.1 then some p else some q) none
  |>.map Prod.snd

/-- A successful `process_transaction` call returns exactly the record built
by `mk_processed` from the two retrieved exchange rates. -/
lemma process_transaction_eq_mk (src : TransactionDetails)
    (rate : ℤ → Option ℚ) (p : TransactionDetailsProcessed)
    (h : process_transaction src rate = some p) :
    ∃ v r, p = mk_processed src v r := by
  unfold process_transaction at h
  cases hv : rate src.vest_date with
  | none => rw [hv] at h; simp at h
  | some v =>
    cases hs : rate src.sale_date with
    | none => rw [hv, hs] at h; simp at h
    | some r =>
      rw [hv, hs] at h
      dsimp only at h
      by_cases hz : v = 0 ∨ r = 0
      · rw [if_pos hz] at h; simp at h
      · rw [if_neg hz] at h
        exact ⟨v, r, (Option.some_inj.mp h).symm⟩

/-- Case analysis of the loss-offset block. -/
lemma corrected_gains_cases (tv tc : ℚ) :
    (0 ≤ tc → corrected_gains tv tc = (tv, tc)) ∧
    (tc < 0 → |tc| ≤ tv → corrected_gains tv tc = (tc + tv, 0)) ∧
    (tc < 0 → tv < |tc| → corrected_gains tv tc = (0, tv + tc)) := by
  unfold corrected_gains
  refine ⟨fun h0 => ?_, fun h1 h2 => ?_, fun h1 h2 => ?_⟩
  · rw [if_neg (not_lt.mpr h0)]
  · rw [if_pos h1, if_pos h2]
  · rw [if_pos h1, if_neg (not_le.mpr h2)]

/-- The corrected gains of a processed record are the loss-offset image of
its own totals (all four are fields of the same record literal). -/
lemma mk_processed_corrected (s : TransactionDetails) (v r : ℚ) :
    ((mk_processed s v r).total_corrected_vest_gain_eur,
      (mk_processed s v r).total_corrected_capital_gain_eur) =
    corrected_gains (mk_processed s v r).total_vest_gain_eur
      (mk_processed s v r).total_capital_gain_eur := rfl

/-- C1: the loss-offset step of process_transaction follows exactly the
three-branch rule: a nonnegative capital gain leaves both totals unchanged;
a capital loss no larger than the vest gain is absorbed into the vest gain,
zeroing the capital gain; a larger loss zeroes the vest gain and leaves the
residual (negative) sum as the corrected capital gain. -/
theorem process_transaction_loss_offset
    (src : TransactionDetails) (rate : ℤ → Option ℚ)
    (p : TransactionDetailsProcessed)
    (h : process_transaction src rate = some p) :
    (0 ≤ p.total_capital_gain_eur →
      p.total_corrected_vest_gain_eur = p.total_vest_gain_eur ∧
      p.total_corrected_capital_gain_eur = p.total_capital_gain_eur) ∧
    (p.total_capital_gain_eur < 0 →
      |p.total_capital_gain_eur| ≤ p.total_vest_gain_eur →
      p.total_corrected_vest_gain_eur =
        p.total_vest_gain_eur + p.total_capital_gain_eur ∧
      p.total_corrected_capital_gain_eur = 0) ∧
    (p.total_capital_gain_eur < 0 →
      p.total_vest_gain_eur < |p.total_capital_gain_eur| →
      p.total_corrected_vest_gain_eur = 0 ∧
      p.total_corrected_capital_gain_eur =
        p.total_vest_gain_eur + p.total_capital_gain_eur) := by
  obtain ⟨v, r, rfl⟩ := process_transaction_eq_mk src rate p h
  obtain ⟨h1, h2, h3⟩ :=
    corrected_gains_cases (mk_processed src v r).total_vest_gain_eur
      (mk_processed src v r).total_capital_gain_eur
  refine ⟨fun h0 => ?_, fun ha hb => ?_, fun ha hb => ?_⟩
  · have hh := (mk_processed_corrected src v r).trans (h1 h0)
    exact ⟨congrArg Prod.fst hh, congrArg Prod.snd hh⟩
  · have hh := (mk_processed_corrected src v r).trans (h2 ha hb)
    exact ⟨(congrArg Prod.fst hh).trans (add_comm _ _), congrArg Prod.snd hh⟩
  · have hh := (mk_processed_corrected src v r).trans (h3 ha hb)
    exact ⟨congrArg Prod.fst hh, congrArg Prod.snd hh⟩

/-- A constant exchange-rate table: every date maps to a rate of 1
(EUR = USD), as in the end-to-end test of the spec. -/
def rate1 : ℤ → Option ℚ := fun _ => some 1

/-- Concrete transaction for the loss-offset boundary: 1 share, vest price
100, sale price -50, rates 1, so totalVestGainEur = 100 and
totalCapitalGainEur = -150. -/
def c1src : TransactionDetails := ⟨1, 0, 100, 10, -50⟩

/-- The processed record of `c1src` under `rate1`. -/
def c1rec : TransactionDetailsProcessed :=
  ⟨1, 0, 100, 10, -50, 1, 100, 1, -50, -150, 100, -150, -50, 10,
    false, false, 0, 0, -50⟩

/-- Witness for C1: on totalVestGainEur = 100, totalCapitalGainEur = -150
the third branch applies and yields correctedVestGainEur = 0,
correctedCapitalGainEur = -50. -/
theorem process_transaction_loss_offset_witness :
    process_transaction c1src rate1 = some c1rec ∧
    c1rec.total_capital_gain_eur < 0 ∧
    c1rec.total_vest_gain_eur < |c1rec.total_capital_gain_eur| ∧
    c1rec.total_corrected_vest_gain_eur = 0 ∧
    c1rec.total_corrected_capital_gain_eur = -50 := by
  have hp : process_transaction c1src rate1 = some c1rec := by
    norm_num [process_transaction, mk_processed, corrected_gains, rate1,
      c1src, c1rec, minimum_detention_50p, minimum_detention_65p, abs]
  have hneg : c1rec.total_capital_gain_eur < 0 := by norm_num [c1rec]
  have hlt : c1rec.total_vest_gain_eur < |c1rec.total_capital_gain_eur| := by
    norm_num [c1rec]
  have hh :=
    (process_transaction_loss_offset c1src rate1 c1rec hp).2.2 hneg hlt
  exact ⟨hp, hneg, hlt, hh.1, hh.2.trans (by norm_num [c1rec])⟩

/-- The detention field is the day difference saleDate - vestDate. -/
lemma mk_processed_detention (s : TransactionDetails) (v r : ℚ) :
    (mk_processed s v r).detention = s.sale_date - s.vest_date := rfl

/-- The 50% eligibility flag is the strict comparison with the minimum
detention of 2 * 365 days. -/
lemma mk_processed_e50 (s : TransactionDetails) (v r : ℚ) :
    (mk_processed s v r).eligible_for_tax_relief_50p =
      decide (s.sale_date - s.vest_date > minimum_detention_50p) := rfl

/-- The 65% eligibility flag is the strict comparison with the minimum
detention of 8 * 365 days. -/
lemma mk_processed_e65 (s : TransactionDetails) (v r : ℚ) :
    (mk_processed s v r).eligible_for_tax_relief_65p =
      decide (s.sale_date - s.vest_date > minimum_detention_65p) := rfl

/-- The tax-relief field of a processed record, in terms of its own
eligibility flags and corrected vest gain. -/
lemma mk_processed_taxe_relief (s : TransactionDetails) (v r : ℚ) :
    (mk_processed s v r).taxe_relief_eur =
      (if (mk_processed s v r).eligible_for_tax_relief_65p then
        (0.65 : ℚ) * (mk_processed s v r).total_corrected_vest_gain_eur
      else if (mk_processed s v r).eligible_for_tax_relief_50p then
        (0.5 : ℚ) * (mk_processed s v r).total_corrected_vest_gain_eur
      else 0) := rfl

/-- C5: relief eligibility uses strict comparisons on the holding period
saleDate - vestDate against 730 and 2920 days, the longer tier wins, and
the relief amount is the winning rate times the corrected vest gain. -/
theorem process_transaction_relief
    (src : TransactionDetails) (rate : ℤ → Option ℚ)
    (p : TransactionDetailsProcessed)
    (h : process_transaction src rate = some p) :
    p.detention = src.sale_date - src.vest_date ∧
    (p.eligible_for_tax_relief_50p = true ↔ 730 < p.detention) ∧
    (p.eligible_for_tax_relief_65p = true ↔ 2920 < p.detention) ∧
    p.taxe_relief_eur =
      (if p.eligible_for_tax_relief_65p then (0.65 : ℚ)
       else if p.eligible_for_tax_relief_50p then (0.5 : ℚ) else 0) *
        p.total_corrected_vest_gain_eur := by
  obtain ⟨v, r, rfl⟩ := process_transaction_eq_mk src rate p h
  refine ⟨mk_processed_detention src v r, ?_, ?_, ?_⟩
  · rw [mk_processed_e50, decide_eq_true_eq, mk_processed_detention]
    unfold minimum_detention_50p
    norm_num
  · rw [mk_processed_e65, decide_eq_true_eq, mk_processed_detention]
    unfold minimum_detention_65p
    norm_num
  · have hrel := mk_processed_taxe_relief src v r
    cases h65 : (mk_processed src v r).eligible_for_tax_relief_65p <;>
      cases h50 : (mk_processed src v r).eligible_for_tax_relief_50p <;>
      rw [h65, h50] at hrel <;> simp at hrel ⊢ <;> rw [hrel]

/-- Processed record for a holding period of exactly 730 days: no relief. -/
def w730 : TransactionDetailsProcessed :=
  ⟨1, 0, 10, 730, 12, 1, 10, 1, 12, 2, 10, 2, 12, 730,
    false, false, 0, 10, 2⟩

/-- Processed record for a holding period of 731 days: 50% relief. -/
def w731 : TransactionDetailsProcessed :=
  ⟨1, 0, 10, 731, 12, 1, 10, 1, 12, 2, 10, 2, 12, 731,
    true, false, 5, 10, 2⟩

/-- Processed record for a holding period of 2921 days: 65% relief. -/
def w2921 : TransactionDetailsProcessed :=
  ⟨1, 0, 10, 2921, 12, 1, 10, 1, 12, 2, 10, 2, 12, 2921,
    true, true, 13/2, 10, 2⟩

/-- Witness for C5: 730 days give no relief, 731 days the 50% rate and
2921 days the 65% rate, on a transaction of 1 share vested at 10 USD and
sold at 12 USD with both rates 1. -/
theorem process_transaction_relief_witness :
    process_transaction ⟨1, 0, 10, 730, 12⟩ rate1 = some w730 ∧
    w730.taxe_relief_eur = 0 ∧
    process_transaction ⟨1, 0, 10, 731, 12⟩ rate1 = some w731 ∧
    w731.taxe_relief_eur = (0.5 : ℚ) * w731.total_corrected_vest_gain_eur ∧
    process_transaction ⟨1, 0, 10, 2921, 12⟩ rate1 = some w2921 ∧
    w2921.taxe_relief_eur = (0.65 : ℚ) * w2921.total_corrected_vest_gain_eur := by
  have h730 : process_transaction ⟨1, 0, 10, 730, 12⟩ rate1 = some w730 := by
    norm_num [process_transaction, mk_processed, corrected_gains, rate1,
      w730, minimum_detention_50p, minimum_detention_65p]
  have h731 : process_transaction ⟨1, 0, 10, 731, 12⟩ rate1 = some w731 := by
    norm_num [process_transaction, mk_processed, corrected_gains, rate1,
      w731, minimum_detention_50p, minimum_detention_65p]
  have h2921 : process_transaction ⟨1, 0, 10, 2921, 12⟩ rate1 = some w2921 := by
    norm_num [process_transaction, mk_processed, corrected_gains, rate1,
      w2921, minimum_detention_50p, minimum_detention_65p]
  refine ⟨h730, ?_, h731, ?_, h2921, ?_⟩
  · exact ((process_transaction_relief _ rate1 w730 h730).2.2.2).trans
      (by norm_num [w730])
  · exact ((process_transaction_relief _ rate1 w731 h731).2.2.2).trans
      (by norm_num [w731])
  · exact ((process_transaction_relief _ rate1 w2921 h2921).2.2.2).trans
      (by norm_num [w2921])

/-- The loss offset only redistributes: the two corrected components always
add up to the two original totals. -/
lemma corrected_gains_add (tv tc : ℚ) :
    (corrected_gains tv tc).1 + (corrected_gains tv tc).2 = tv + tc := by
  unfold corrected_gains
  split_ifs <;> ring

/-- Per-transaction form of the sum invariant. -/
lemma process_transaction_sum_invariant
    (src : TransactionDetails) (rate : ℤ → Option ℚ)
    (p : TransactionDetailsProcessed)
    (h : process_transaction src rate = some p) :
    p.total_corrected_vest_gain_eur + p.total_corrected_capital_gain_eur =
      p.total_vest_gain_eur + p.total_capital_gain_eur := by
  obtain ⟨v, r, rfl⟩ := process_transaction_eq_mk src rate p h
  exact corrected_gains_add (mk_processed src v r).total_vest_gain_eur
    (mk_processed src v r).total_capital_gain_eur

/-- C8: over any successfully processed transaction set, the sums of the
corrected gains equal the sums of the original gains: the loss offset only
redistributes value, it never creates or destroys it. -/
theorem process_all_sum_invariant
    (ts : List TransactionDetails) (rate : ℤ → Option ℚ)
    (ps : List TransactionDetailsProcessed)
    (h : process_all_transactions ts rate = some ps) :
    (ps.map (·.total_corrected_vest_gain_eur)).sum +
      (ps.map (·.total_corrected_capital_gain_eur)).sum =
    (ps.map (·.total_vest_gain_eur)).sum +
      (ps.map (·.total_capital_gain_eur)).sum := by
  induction ts generalizing ps with
  | nil =>
    unfold process_all_transactions at h
    obtain rfl : ([] : List TransactionDetailsProcessed) = ps :=
      Option.some_inj.mp h
    simp
  | cons t rest ih =>
    unfold process_all_transactions at h
    cases hp : process_transaction t rate with
    | none => rw [hp] at h; simp at h
    | some p =>
      cases hr : process_all_transactions rest rate with
      | none => rw [hp, hr] at h; simp at h
      | some qs =>
        rw [hp, hr] at h
        obtain rfl : p :: qs = ps := Option.some_inj.mp h
        have h1 := process_transaction_sum_invariant t rate p hp
        have h2 := ih qs hr
        simp only [List.map_cons, List.sum_cons]
        linarith

/-- Concrete transaction of the end-to-end spec test: 100 shares, vested at
10 USD, sold 10 days later at 12 USD, both exchange rates 1. -/
def c2src : TransactionDetails := ⟨100, 0, 10, 10, 12⟩

/-- The processed record of `c2src` under `rate1`. -/
def c2rec : TransactionDetailsProcessed :=
  ⟨100, 0, 10, 10, 12, 1, 10, 1, 12, 2, 1000, 200, 1200, 10,
    false, false, 0, 1000, 200⟩

/-- Witness for C8: on the two-transaction set made of `c2src` and `c1src`
the corrected sums 1000 + 150 equal the original sums 1100 + 50. -/
theorem process_all_sum_invariant_witness :
    process_all_transactions [c2src, c1src] rate1 = some [c2rec, c1rec] ∧
    ([c2rec, c1rec].map (·.total_corrected_vest_gain_eur)).sum +
      ([c2rec, c1rec].map (·.total_corrected_capital_gain_eur)).sum =
    ([c2rec, c1rec].map (·.total_vest_gain_eur)).sum +
      ([c2rec, c1rec].map (·.total_capital_gain_eur)).sum := by
  have hall : process_all_transactions [c2src, c1src] rate1 =
      some [c2rec, c1rec] := by
    norm_num [process_all_transactions, process_transaction, mk_processed,
      corrected_gains, rate1, c1src, c1rec, c2src, c2rec,
      minimum_detention_50p, minimum_detention_65p, abs]
  exact ⟨hall, process_all_sum_invariant [c2src, c1src] rate1 _ hall⟩

/-- C2: the aggregation formulas of generate_summary: social contributions
are 17.2% of the corrected vest gain total, the income tax is the marginal
rate applied to the corrected vest gain total minus the relief total, the
capital-gain tax is the 30% flat tax on the corrected capital gain total,
the total tax is their sum and the effective rate divides it by the total
sale proceeds. -/
theorem generate_summary_formulas
    (trs : List TransactionDetailsProcessed) (mtr : ℚ) (s : TaxSummary)
    (h : generate_summary trs mtr = some s) :
    s.social_contributions_on_vest_gain =
      (0.172 : ℚ) * (trs.map (·.total_corrected_vest_gain_eur)).sum ∧
    s.tax_on_vest_gain =
      mtr * ((trs.map (·.total_corrected_vest_gain_eur)).sum -
        (trs.map (·.taxe_relief_eur)).sum) ∧
    s.tax_on_capital_gain =
      (0.30 : ℚ) * (trs.map (·.total_corrected_capital_gain_eur)).sum ∧
    s.total_tax = s.social_contributions_on_vest_gain + s.tax_on_vest_gain +
      s.tax_on_capital_gain ∧
    s.total_tax_rate = s.total_tax / (trs.map (·.total_sale_price_eur)).sum := by
  unfold generate_summary at h
  by_cases hz : (trs.map (·.total_sale_price_eur)).sum = 0
  · rw [if_pos hz] at h; simp at h
  · rw [if_neg hz] at h
    obtain rfl := (Option.some_inj.mp h).symm
    refine ⟨?_, rfl, ?_, rfl, rfl⟩
    · show (17.2 : ℚ) / 100 * _ = _
      norm_num
    · show (30 : ℚ) / 100 * _ = _
      norm_num

/-- The tax summary of the end-to-end spec test: one transaction `c2rec`,
marginal rate 0.30. -/
def c2sum : TaxSummary :=
  ⟨1000, 200, 1200, 0, 1000, 200, 172, 300, 60, 532, 133/300⟩

/-- Witness for C2: the single transaction with shares 100, vest price 10,
sale price 12 and rates 1 under a marginal rate of 0.30 yields social
contributions 172, tax on vest gain 300, tax on capital gain 60 and total
tax 532. -/
theorem generate_summary_formulas_witness :
    process_transaction c2src rate1 = some c2rec ∧
    generate_summary [c2rec] (30/100) = some c2sum ∧
    c2sum.social_contributions_on_vest_gain = 172 ∧
    c2sum.tax_on_vest_gain = 300 ∧
    c2sum.tax_on_capital_gain = 60 ∧
    c2sum.total_tax = 532 := by
  have hp : process_transaction c2src rate1 = some c2rec := by
    norm_num [process_transaction, mk_processed, corrected_gains, rate1,
      c2src, c2rec, minimum_detention_50p, minimum_detention_65p]
  have hs : generate_summary [c2rec] (30/100) = some c2sum := by
    norm_num [generate_summary, c2rec, c2sum]
  have hf := generate_summary_formulas [c2rec] (30/100) c2sum hs
  refine ⟨hp, hs, ?_, ?_, ?_, ?_⟩
  · exact hf.1.trans (by norm_num [c2rec])
  · exact hf.2.1.trans (by norm_num [c2rec])
  · exact hf.2.2.1.trans (by norm_num [c2rec])
  · exact hf.2.2.2.1.trans (by norm_num [c2sum])

/-- Counterexample for C3: on the empty transaction set (total sale
proceeds 0) the aggregator does not return a summary at all: the unguarded
effective-rate division raises ZeroDivisionError (modelled as none), so no
zero-rate summary with a warning is produced. -/
theorem generate_summary_empty_counterexample :
    generate_summary ([] : List TransactionDetailsProcessed) (30/100) = none := by
  norm_num [generate_summary]

/-- C3 amended: whenever the aggregated totalSalePriceEur is zero (in
particular for the empty transaction set), generate_summary fails with a
ZeroDivisionError rather than returning a summary with a flagged
zero/undefined rate. -/
theorem generate_summary_zero_sale_fails
    (trs : List TransactionDetailsProcessed) (mtr : ℚ)
    (h : (trs.map (·.total_sale_price_eur)).sum = 0) :
    generate_summary trs mtr = none := by
  unfold generate_summary
  rw [if_pos h]

/-- Witness for the amended C3: the empty transaction set has zero total
sale proceeds and the aggregator fails on it. -/
theorem generate_summary_zero_sale_fails_witness :
    (([] : List TransactionDetailsProcessed).map (·.total_sale_price_eur)).sum
        = 0 ∧
    generate_summary ([] : List TransactionDetailsProcessed) (41/100) = none := by
  have h0 : (([] : List TransactionDetailsProcessed).map
      (·.total_sale_price_eur)).sum = 0 := by simp
  exact ⟨h0, generate_summary_zero_sale_fails [] (41/100) h0⟩

/-- Rounding half to even stays within half a unit of the input. -/
lemma pyRound_dist (q : ℚ) : |q - (pyRound q : ℚ)| ≤ 1/2 := by
  have h0 : (0:ℚ) ≤ q - ⌊q⌋ := sub_nonneg.mpr (Int.floor_le q)
  have h1 : q - ⌊q⌋ < 1 := by
    have := Int.lt_floor_add_one q
    linarith
  unfold pyRound
  split_ifs with ha hb hc
  · rw [abs_of_nonneg h0]; linarith
  · push_cast
    rw [abs_of_nonpos (by linarith)]
    linarith
  · rw [not_lt] at ha hb
    rw [abs_of_nonneg h0]; linarith
  · rw [not_lt] at ha hb
    push_cast
    rw [abs_of_nonpos (by linarith)]
    linarith

/-- Two rationals with the same half-even rounding differ by at most 1. -/
lemma pyRound_close (a b : ℚ) (h : pyRound a = pyRound b) : |a - b| ≤ 1 := by
  have ha := pyRound_dist a
  have hb := pyRound_dist b
  rw [h] at ha
  calc |a - b| ≤ |a - (pyRound b : ℚ)| + |(pyRound b : ℚ) - b| := abs_sub_le _ _ _
  _ = |a - (pyRound b : ℚ)| + |b - (pyRound b : ℚ)| := by rw [abs_sub_comm (pyRound b : ℚ) b]
  _ ≤ 1/2 + 1/2 := add_le_add ha hb
  _ = 1 := by norm_num

/-- Two transactions sharing a grouping key have vest and sale prices that
agree within 0.001, hence well within the 0.01 assert tolerance: the
rounded-to-three-decimals key components force agreement. -/
lemma key_close (t1 t2 : TransactionDetails)
    (h : transactionKey t1 = transactionKey t2) :
    |t1.vest_price_usd - t2.vest_price_usd| < 1/100 ∧
    |t1.sale_price_usd - t2.sale_price_usd| < 1/100 := by
  unfold transactionKey at h
  have h3 : pyRound (t1.sale_price_usd * 1000) =
      pyRound (t2.sale_price_usd * 1000) :=
    congrArg (fun p => p.2.2.1) h
  have h4 : pyRound (t1.vest_price_usd * 1000) =
      pyRound (t2.vest_price_usd * 1000) :=
    congrArg (fun p => p.2.2.2) h
  constructor
  · have hc := pyRound_close _ _ h4
    have habs : |t1.vest_price_usd - t2.vest_price_usd| * 1000 ≤ 1 := by
      calc |t1.vest_price_usd - t2.vest_price_usd| * 1000
          = |(t1.vest_price_usd - t2.vest_price_usd) * 1000| := by
            rw [abs_mul]; norm_num
        _ = |t1.vest_price_usd * 1000 - t2.vest_price_usd * 1000| := by ring_nf
        _ ≤ 1 := hc
    linarith
  · have hc := pyRound_close _ _ h3
    have habs : |t1.sale_price_usd - t2.sale_price_usd| * 1000 ≤ 1 := by
      calc |t1.sale_price_usd - t2.sale_price_usd| * 1000
          = |(t1.sale_price_usd - t2.sale_price_usd) * 1000| := by
            rw [abs_mul]; norm_num
        _ = |t1.sale_price_usd * 1000 - t2.sale_price_usd * 1000| := by ring_nf
        _ ≤ 1 := hc
    linarith

/-- firstKeys keeps exactly the elements of the list. -/
lemma firstKeys_mem (l : List (ℤ × ℤ × ℤ × ℤ)) (k : ℤ × ℤ × ℤ × ℤ) :
    k ∈ firstKeys l ↔ k ∈ l := by
  induction l with
  | nil => simp [firstKeys]
  | cons a l ih =>
    simp only [firstKeys, List.mem_cons, List.mem_filter, decide_eq_true_eq]
    constructor
    · rintro (rfl | ⟨hk, _⟩)
      · exact Or.inl rfl
      · exact Or.inr (ih.mp hk)
    · rintro (rfl | hk)
      · exact Or.inl rfl
      · by_cases hek : k = a
        · exact Or.inl hek
        · exact Or.inr ⟨ih.mpr hk, hek⟩

/-- firstKeys holds no duplicates. -/
lemma firstKeys_nodup (l : List (ℤ × ℤ × ℤ × ℤ)) : (firstKeys l).Nodup := by
  induction l with
  | nil => simp [firstKeys]
  | cons a l ih =>
    refine List.nodup_cons.mpr ⟨?_, List.Nodup.filter _ ih⟩
    intro hmem
    rcases List.mem_filter.mp hmem with ⟨_, hp⟩
    simp at hp

/-- On a duplicate-free list, firstKeys is the identity. -/
lemma firstKeys_eq_self (l : List (ℤ × ℤ × ℤ × ℤ)) (h : l.Nodup) :
    firstKeys l = l := by
  induction l with
  | nil => rfl
  | cons a l ih =>
    rcases List.nodup_cons.mp h with ⟨ha, hl⟩
    simp only [firstKeys, ih hl]
    rw [List.filter_eq_self.mpr]
    intro b hb
    simp only [decide_eq_true_eq]
    exact fun hba => ha (hba ▸ hb)

/-- Membership in a merge group. -/
lemma keyGroup_mem (ts : List TransactionDetails) (k : ℤ × ℤ × ℤ × ℤ)
    (t : TransactionDetails) :
    t ∈ keyGroup ts k ↔ t ∈ ts ∧ transactionKey t = k := by
  unfold keyGroup
  simp [List.mem_filter]

/-- A key that occurs in the input has a nonempty merge group. -/
lemma keyGroup_ne_nil (ts : List TransactionDetails) (k : ℤ × ℤ × ℤ × ℤ)
    (h : k ∈ ts.map transactionKey) : keyGroup ts k ≠ [] := by
  rcases List.mem_map.mp h with ⟨t, ht, rfl⟩
  intro hnil
  have hmem : t ∈ keyGroup ts (transactionKey t) :=
    (keyGroup_mem ts (transactionKey t) t).mpr ⟨ht, rfl⟩
  rw [hnil] at hmem
  exact List.not_mem_nil t hmem

/-- Any two members of one merge group share the grouping key. -/
lemma groupsOf_same_key (ts : List TransactionDetails)
    (g : List TransactionDetails) (hg : g ∈ groupsOf ts)
    (t1 t2 : TransactionDetails) (h1 : t1 ∈ g) (h2 : t2 ∈ g) :
    transactionKey t1 = transactionKey t2 := by
  unfold groupsOf at hg
  rcases List.mem_map.mp hg with ⟨k, _, rfl⟩
  rw [((keyGroup_mem ts k t1).mp h1).2, ((keyGroup_mem ts k t2).mp h2).2]


/-- Unfolding of the group reduction on a nonempty group. -/
lemma reduceGroup_cons (t0 : TransactionDetails) (rest : List TransactionDetails) :
    reduceGroup (t0 :: rest) =
      (if rest.isEmpty then Except.ok t0
       else if ((t0 :: rest).all
            fun tr => |tr.vest_price_usd - t0.vest_price_usd| < 1/100) &&
          ((t0 :: rest).all
            fun tr => |tr.sale_price_usd - t0.sale_price_usd| < 1/100) then
        Except.ok
          { num_shares := ((t0 :: rest).map (·.num_shares)).sum
            vest_date := t0.vest_date
            vest_price_usd := t0.vest_price_usd
            sale_date := t0.sale_date
            sale_price_usd := t0.sale_price_usd }
      else Except.error "InconsistentLotError") := rfl

/-- A successful group reduction carries the group key to the output: the
merged transaction keeps the first member's dates and prices, hence its key. -/
lemma reduceGroup_key (g : List TransactionDetails) (k : ℤ × ℤ × ℤ × ℤ)
    (hall : ∀ t ∈ g, transactionKey t = k) (o : TransactionDetails)
    (h : reduceGroup g = Except.ok o) : transactionKey o = k := by
  cases g with
  | nil => exact Except.noConfusion h
  | cons t0 rest =>
    rw [reduceGroup_cons] at h
    split at h
    · injection h with h2
      subst h2
      exact hall _ (List.mem_cons_self _ _)
    · split at h
      · injection h with h2
        subst h2
        have hko : transactionKey
            ({ num_shares := ((t0 :: rest).map (·.num_shares)).sum
               vest_date := t0.vest_date
               vest_price_usd := t0.vest_price_usd
               sale_date := t0.sale_date
               sale_price_usd := t0.sale_price_usd } : TransactionDetails) =
            transactionKey t0 := rfl
        rw [hko]
        exact hall t0 (List.mem_cons_self _ _)
      · exact Except.noConfusion h

/-- A merge group whose members all share one key reduces successfully: the
assert tolerance 0.01 is strictly wider than the 0.001 agreement the
rounded key already enforces, so the consistency checks always pass. -/
lemma reduceGroup_ok (g : List TransactionDetails) (k : ℤ × ℤ × ℤ × ℤ)
    (hne : g ≠ []) (hall : ∀ t ∈ g, transactionKey t = k) :
    ∃ o, reduceGroup g = Except.ok o := by
  cases g with
  | nil => exact absurd rfl hne
  | cons t0 rest =>
    rw [reduceGroup_cons]
    by_cases hr : rest.isEmpty
    · rw [if_pos hr]
      exact ⟨t0, rfl⟩
    · rw [if_neg hr]
      have hkey : ∀ t ∈ t0 :: rest, transactionKey t = transactionKey t0 := by
        intro t ht
        rw [hall t ht, hall t0 (List.mem_cons_self _ _)]
      have hc1 : ((t0 :: rest).all
          fun tr => |tr.vest_price_usd - t0.vest_price_usd| < 1/100) = true := by
        rw [List.all_eq_true]
        intro tr htr
        simp only [decide_eq_true_eq]
        exact (key_close tr t0 (hkey tr htr)).1
      have hc2 : ((t0 :: rest).all
          fun tr => |tr.sale_price_usd - t0.sale_price_usd| < 1/100) = true := by
        rw [List.all_eq_true]
        intro tr htr
        simp only [decide_eq_true_eq]
        exact (key_close tr t0 (hkey tr htr)).2
      rw [if_pos (by rw [hc1, hc2]; rfl)]
      exact ⟨_, rfl⟩

/-- The properties of one reduced group: shares are summed, dates and
prices come from a member, and singleton groups pass through unchanged. -/
lemma reduceGroup_props (g : List TransactionDetails) (o : TransactionDetails)
    (h : reduceGroup g = Except.ok o) :
    o.num_shares = (g.map (·.num_shares)).sum ∧
    (∃ t0, t0 ∈ g ∧ o.vest_date = t0.vest_date ∧
      o.vest_price_usd = t0.vest_price_usd ∧ o.sale_date = t0.sale_date ∧
      o.sale_price_usd = t0.sale_price_usd) ∧
    (∀ t, g = [t] → o = t) := by
  cases g with
  | nil => exact Except.noConfusion h
  | cons t0 rest =>
    rw [reduceGroup_cons] at h
    split at h
    · next hr =>
      injection h with h2
      subst h2
      obtain rfl : rest = [] := List.isEmpty_iff.mp hr
      refine ⟨by simp, ⟨t0, List.mem_cons_self _ _, rfl, rfl, rfl, rfl⟩, ?_⟩
      intro t ht
      simp only [List.cons.injEq, and_true] at ht
      exact ht
    · next hr =>
      split at h
      · injection h with h2
        subst h2
        refine ⟨rfl, ⟨t0, List.mem_cons_self _ _, rfl, rfl, rfl, rfl⟩, ?_⟩
        intro t ht
        simp only [List.cons.injEq] at ht
        rw [ht.2] at hr
        simp at hr
      · exact Except.noConfusion h

/-- Unfolding of the reduction loop on a nonempty group list. -/
lemma reduceGroups_cons (g : List TransactionDetails)
    (gs : List (List TransactionDetails)) :
    reduceGroups (g :: gs) =
      (match reduceGroup g, reduceGroups gs with
       | Except.ok t, Except.ok ts => Except.ok (t :: ts)
       | Except.error e, _ => Except.error e
       | _, Except.error e => Except.error e) := rfl

/-- A successful reduction loop reduces each group to the matching output
transaction, in order. -/
lemma reduceGroups_forall₂ (gs : List (List TransactionDetails))
    (out : List TransactionDetails) (h : reduceGroups gs = Except.ok out) :
    List.Forall₂ (fun g o => reduceGroup g = Except.ok o) gs out := by
  induction gs generalizing out with
  | nil =>
    obtain rfl : ([] : List TransactionDetails) = out := by
      injection h with h2
    exact List.Forall₂.nil
  | cons g gs ih =>
    rw [reduceGroups_cons] at h
    cases hg : reduceGroup g with
    | error e =>
      cases hgs : reduceGroups gs with
      | error e2 => rw [hg, hgs] at h; exact Except.noConfusion h
      | ok ts => rw [hg, hgs] at h; exact Except.noConfusion h
    | ok t =>
      cases hgs : reduceGroups gs with
      | error e => rw [hg, hgs] at h; exact Except.noConfusion h
      | ok ts =>
        rw [hg, hgs] at h
        obtain rfl : t :: ts = out := by injection h with h2
        exact List.Forall₂.cons hg (ih ts hgs)

/-- Reducing the groups of any key list drawn from the input always
succeeds: every group is nonempty and all its members share its key. -/
lemma reduceGroups_map_ok (ts : List TransactionDetails)
    (ks : List (ℤ × ℤ × ℤ × ℤ)) (h : ∀ k ∈ ks, k ∈ ts.map transactionKey) :
    ∃ out, reduceGroups (ks.map (keyGroup ts)) = Except.ok out := by
  induction ks with
  | nil => exact ⟨[], rfl⟩
  | cons k ks ih =>
    obtain ⟨out, hout⟩ := ih (fun k2 hk2 => h k2 (List.mem_cons_of_mem _ hk2))
    obtain ⟨o, ho⟩ := reduceGroup_ok (keyGroup ts k) k
      (keyGroup_ne_nil ts k (h k (List.mem_cons_self _ _)))
      (fun t ht => ((keyGroup_mem ts k t).mp ht).2)
    refine ⟨o :: out, ?_⟩
    rw [List.map_cons, reduceGroups_cons, ho, hout]

/-- group_transactions never fails: the rounded grouping key already forces
the price agreement the asserts check for. -/
lemma group_transactions_total (ts : List TransactionDetails) :
    ∃ out, group_transactions ts = Except.ok out :=
  reduceGroups_map_ok ts (firstKeys (ts.map transactionKey))
    (fun k hk => (firstKeys_mem (ts.map transactionKey) k).mp hk)

/-- C7: the normalizer fails with InconsistentLotError exactly when some
merge group of size greater than 1 has two members whose vest prices or
whose sale prices differ by at least 0.01.  Both sides are in fact
impossible: the grouping key rounds prices to three decimals, so members of
one group always agree within 0.001, the asserts always pass, and the
error is never raised (and equally no transactions are ever lost to it). -/
theorem group_transactions_error_iff (ts : List TransactionDetails) :
    (∃ e, group_transactions ts = Except.error e) ↔
    (∃ g ∈ groupsOf ts, 1 < g.length ∧ ∃ t1 ∈ g, ∃ t2 ∈ g,
      (1/100 : ℚ) ≤ |t1.vest_price_usd - t2.vest_price_usd| ∨
      (1/100 : ℚ) ≤ |t1.sale_price_usd - t2.sale_price_usd|) := by
  constructor
  · rintro ⟨e, he⟩
    obtain ⟨out, hout⟩ := group_transactions_total ts
    rw [hout] at he
    exact Except.noConfusion he
  · rintro ⟨g, hg, _, t1, h1, t2, h2, hbad⟩
    have hk := groupsOf_same_key ts g hg t1 t2 h1 h2
    have hcl := key_close t1 t2 hk
    rcases hbad with hb | hb
    · exact absurd hb (not_le.mpr hcl.1)
    · exact absurd hb (not_le.mpr hcl.2)

/-- C6: the normalizer emits exactly one canonical transaction per merge
group (the lists correspond pairwise in order), with shares summed over the
group, date and price fields copied from a member, and singleton groups
passed through unchanged. -/
theorem group_transactions_merge (ts : List TransactionDetails)
    (out : List TransactionDetails) (h : group_transactions ts = Except.ok out) :
    List.Forall₂ (fun g o =>
      o.num_shares = (g.map (·.num_shares)).sum ∧
      (∃ t0, t0 ∈ g ∧ o.vest_date = t0.vest_date ∧
        o.vest_price_usd = t0.vest_price_usd ∧ o.sale_date = t0.sale_date ∧
        o.sale_price_usd = t0.sale_price_usd) ∧
      (∀ t, g = [t] → o = t)) (groupsOf ts) out :=
  (reduceGroups_forall₂ (groupsOf ts) out h).imp
    (fun g o hro => reduceGroup_props g o hro)

/-- First lot of the merge scenario: 3 shares, vested 2023-01-02 at 10.00
USD, sold 2023-06-01 at 12.00 USD (dates encoded as yyyymmdd integers). -/
def l6a : TransactionDetails := ⟨3, 20230102, 10, 20230601, 12⟩

/-- Second lot of the merge scenario: 5 shares, same dates and prices. -/
def l6b : TransactionDetails := ⟨5, 20230102, 10, 20230601, 12⟩

/-- The merged canonical transaction: 8 shares, same dates and prices. -/
def m6 : TransactionDetails := ⟨8, 20230102, 10, 20230601, 12⟩

/-- The two identically-keyed lots form a single merge group. -/
lemma groups_l6 : groupsOf [l6a, l6b] = [[l6a, l6b]] := by
  norm_num [groupsOf, firstKeys, keyGroup, transactionKey, pyRound, l6a, l6b]

/-- Evaluating the normalizer on the merge scenario. -/
lemma group_merge_eval : group_transactions [l6a, l6b] = Except.ok [m6] := by
  unfold group_transactions
  rw [groups_l6]
  norm_num [reduceGroups, reduceGroup, l6a, l6b, m6]

/-- Witness for C6: the two lots with identical dates and prices and shares
3 and 5 merge into one transaction with 8 shares and the same fields. -/
theorem group_transactions_merge_witness :
    group_transactions [l6a, l6b] = Except.ok [m6] ∧
    m6.num_shares = 8 ∧ m6.vest_date = l6a.vest_date ∧
    m6.vest_price_usd = l6a.vest_price_usd ∧
    m6.sale_date = l6a.sale_date ∧ m6.sale_price_usd = l6a.sale_price_usd := by
  have hfa := group_transactions_merge [l6a, l6b] [m6] group_merge_eval
  rw [groups_l6] at hfa
  have hpair := (List.forall₂_cons.mp hfa).1
  exact ⟨group_merge_eval, hpair.1.trans (by norm_num [l6a, l6b]),
    rfl, rfl, rfl, rfl⟩

/-- If the head's key occurs nowhere else, its merge group is a singleton. -/
lemma keyGroup_cons_self (t : TransactionDetails) (ts : List TransactionDetails)
    (hnt : transactionKey t ∉ ts.map transactionKey) :
    keyGroup (t :: ts) (transactionKey t) = [t] := by
  unfold keyGroup
  rw [List.filter_cons, if_pos (by simp)]
  have hnil : ts.filter (fun u => transactionKey u = transactionKey t) = [] := by
    rw [List.filter_eq_nil_iff]
    intro u hu
    simp only [decide_eq_true_eq]
    exact fun he => hnt (List.mem_map.mpr ⟨u, hu, he⟩)
  rw [hnil]

/-- Prepending a transaction with a different key leaves a group unchanged. -/
lemma keyGroup_cons_ne (t : TransactionDetails) (ts : List TransactionDetails)
    (k : ℤ × ℤ × ℤ × ℤ) (hne : transactionKey t ≠ k) :
    keyGroup (t :: ts) k = keyGroup ts k := by
  unfold keyGroup
  rw [List.filter_cons, if_neg (by simp [hne])]

/-- On an input with pairwise distinct keys, every merge group is the
singleton of its transaction, in input order. -/
lemma groupsOf_nodup (ts : List TransactionDetails)
    (h : (ts.map transactionKey).Nodup) :
    groupsOf ts = ts.map (fun t => [t]) := by
  induction ts with
  | nil => rfl
  | cons t rest ih =>
    have h2 := List.nodup_cons.mp (by rw [List.map_cons] at h; exact h)
    unfold groupsOf
    simp only [List.map_cons, firstKeys]
    have hfil : (firstKeys (rest.map transactionKey)).filter
        (fun k2 => k2 ≠ transactionKey t) = firstKeys (rest.map transactionKey) := by
      rw [List.filter_eq_self]
      intro k hk
      simp only [decide_eq_true_eq]
      exact fun he => h2.1 (by rw [← he]; exact (firstKeys_mem _ _).mp hk)
    rw [hfil, keyGroup_cons_self t rest h2.1]
    congr 1
    rw [List.map_congr_left (fun k hk => keyGroup_cons_ne t rest k
      (fun he => h2.1 (by rw [he]; exact (firstKeys_mem _ _).mp hk)))]
    exact ih h2.2

/-- Reducing a list of singleton groups returns the transactions unchanged. -/
lemma reduceGroups_singletons (ts : List TransactionDetails) :
    reduceGroups (ts.map (fun t => [t])) = Except.ok ts := by
  induction ts with
  | nil => rfl
  | cons t rest ih =>
    rw [List.map_cons, reduceGroups_cons, ih]
    rfl

/-- On an input with pairwise distinct keys, the normalizer is the
identity. -/
lemma group_transactions_nodup_id (ts : List TransactionDetails)
    (h : (ts.map transactionKey).Nodup) :
    group_transactions ts = Except.ok ts := by
  unfold group_transactions
  rw [groupsOf_nodup ts h]
  exact reduceGroups_singletons ts

/-- Each output transaction of a successful reduction over key groups
carries the key of its group. -/
lemma map_key_eq_of_forall₂ (ts : List TransactionDetails)
    (ks : List (ℤ × ℤ × ℤ × ℤ)) (out : List TransactionDetails)
    (hf : List.Forall₂
      (fun k o => reduceGroup (keyGroup ts k) = Except.ok o) ks out)
    (hmem : ∀ k ∈ ks, k ∈ ts.map transactionKey) :
    out.map transactionKey = ks := by
  induction hf with
  | nil => rfl
  | @cons k o ks2 out2 h1 h2 ih =>
    rw [List.map_cons]
    rw [reduceGroup_key (keyGroup ts k) k
      (fun t ht => ((keyGroup_mem ts k t).mp ht).2) o h1]
    rw [ih (fun k2 hk2 => hmem k2 (List.mem_cons_of_mem _ hk2))]

/-- The keys of the normalizer's output are the distinct input keys in
first-occurrence order. -/
lemma group_transactions_out_keys (ts : List TransactionDetails)
    (out : List TransactionDetails) (h : group_transactions ts = Except.ok out) :
    out.map transactionKey = firstKeys (ts.map transactionKey) := by
  have hf := reduceGroups_forall₂ (groupsOf ts) out h
  unfold groupsOf at hf
  rw [List.forall₂_map_left_iff] at hf
  exact map_key_eq_of_forall₂ ts _ out hf
    (fun k hk => (firstKeys_mem (ts.map transactionKey) k).mp hk)

/-- C9: the normalizer is idempotent: an input whose lots already have
pairwise distinct grouping keys is returned unchanged, and normalizing any
successfully normalized output again returns it unchanged (so normalizing
twice equals normalizing once). -/
theorem group_transactions_idempotent (ts : List TransactionDetails) :
    ((ts.map transactionKey).Nodup → group_transactions ts = Except.ok ts) ∧
    ∀ out, group_transactions ts = Except.ok out →
      group_transactions out = Except.ok out := by
  refine ⟨group_transactions_nodup_id ts, fun out h => ?_⟩
  apply group_transactions_nodup_id
  rw [group_transactions_out_keys ts out h]
  exact firstKeys_nodup (ts.map transactionKey)

/-- A lot with a grouping key different from the merge-scenario lots. -/
def l9b : TransactionDetails := ⟨5, 0, 10, 1, 11⟩

/-- Witness for C9: a two-lot input with distinct keys is returned
unchanged, and normalizing that output again returns it unchanged. -/
theorem group_transactions_idempotent_witness :
    (([l6a, l9b].map transactionKey).Nodup ∧
      group_transactions [l6a, l9b] = Except.ok [l6a, l9b]) ∧
    group_transactions [l6a, l9b] = Except.ok [l6a, l9b] := by
  have hnd : ([l6a, l9b].map transactionKey).Nodup := by
    norm_num [l6a, l9b, transactionKey, pyRound]
  have h1 := (group_transactions_idempotent [l6a, l9b]).1 hnd
  exact ⟨⟨hnd, h1⟩, (group_transactions_idempotent [l6a, l9b]).2 [l6a, l9b] h1⟩

/-- Splitting the share sum of a list along a Boolean predicate. -/
lemma sum_shares_filter_split (p : TransactionDetails → Bool)
    (l : List TransactionDetails) :
    ((l.filter p).map (·.num_shares)).sum +
      ((l.filter (fun a => !(p a))).map (·.num_shares)).sum =
    (l.map (·.num_shares)).sum := by
  induction l with
  | nil => simp
  | cons a l ih =>
    cases hp : p a <;> simp [List.filter_cons, hp] <;> linarith [ih]

/-- Summing the shares of the merge groups over any duplicate-free list of
keys covering the input recovers the total number of input shares. -/
lemma sum_shares_groups (ks : List (ℤ × ℤ × ℤ × ℤ)) :
    ∀ ts : List TransactionDetails, ks.Nodup →
      (∀ t ∈ ts, transactionKey t ∈ ks) →
      (ks.map (fun k => ((keyGroup ts k).map (·.num_shares)).sum)).sum =
        (ts.map (·.num_shares)).sum := by
  induction ks with
  | nil =>
    intro ts _ hcov
    obtain rfl : ts = [] := by
      cases ts with
      | nil => rfl
      | cons t rest =>
        exact absurd (hcov t (List.mem_cons_self _ _)) (List.not_mem_nil _)
    rfl
  | cons k ks ih =>
    intro ts hnd hcov
    have hnd2 := List.nodup_cons.mp hnd
    simp only [List.map_cons, List.sum_cons]
    have hrest : ∀ k2 ∈ ks, keyGroup ts k2 =
        keyGroup (ts.filter (fun t => !(decide (transactionKey t = k)))) k2 := by
      intro k2 hk2
      unfold keyGroup
      rw [List.filter_filter]
      apply List.filter_congr
      intro t _
      by_cases he : transactionKey t = k2
      · have hne : transactionKey t ≠ k := by
          rw [he]
          exact fun hkk => hnd2.1 (hkk ▸ hk2)
        simp [he, hne]
        exact fun hkk => hnd2.1 (hkk ▸ hk2)
      · simp [he]
    have hmapeq : ks.map (fun k2 => ((keyGroup ts k2).map (·.num_shares)).sum) =
        ks.map (fun k2 => ((keyGroup
          (ts.filter (fun t => !(decide (transactionKey t = k)))) k2).map
            (·.num_shares)).sum) :=
      List.map_congr_left (fun k2 hk2 => by rw [hrest k2 hk2])
    have hcov2 : ∀ t ∈ ts.filter (fun t => !(decide (transactionKey t = k))),
        transactionKey t ∈ ks := by
      intro t ht
      rcases List.mem_filter.mp ht with ⟨hts, hp⟩
      rcases List.mem_cons.mp (hcov t hts) with hek | hks
      · rw [hek] at hp
        simp at hp
      · exact hks
    rw [hmapeq, ih (ts.filter (fun t => !(decide (transactionKey t = k))))
      hnd2.2 hcov2]
    have hsplit := sum_shares_filter_split
      (fun t => decide (transactionKey t = k)) ts
    unfold keyGroup
    exact hsplit

/-- The output shares of a successful reduction are the per-group share
sums, key by key. -/
lemma out_shares_eq (ts : List TransactionDetails)
    (ks : List (ℤ × ℤ × ℤ × ℤ)) (out : List TransactionDetails)
    (hf : List.Forall₂
      (fun k o => reduceGroup (keyGroup ts k) = Except.ok o) ks out) :
    (out.map (·.num_shares)).sum =
      (ks.map (fun k => ((keyGroup ts k).map (·.num_shares)).sum)).sum := by
  induction hf with
  | nil => rfl
  | @cons k o ks2 out2 hr hrest ih =>
    simp only [List.map_cons, List.sum_cons, ih,
      (reduceGroup_props (keyGroup ts k) o hr).1]

/-- C10: when the normalizer succeeds, the total number of shares is
conserved: the output transactions carry exactly the shares of the input
lots. -/
theorem group_transactions_shares_conserved (ts : List TransactionDetails)
    (out : List TransactionDetails)
    (h : group_transactions ts = Except.ok out) :
    (out.map (·.num_shares)).sum = (ts.map (·.num_shares)).sum := by
  have hf := reduceGroups_forall₂ (groupsOf ts) out h
  unfold groupsOf at hf
  rw [List.forall₂_map_left_iff] at hf
  rw [out_shares_eq ts (firstKeys (ts.map transactionKey)) out hf]
  exact sum_shares_groups (firstKeys (ts.map transactionKey)) ts
    (firstKeys_nodup (ts.map transactionKey))
    (fun t ht => (firstKeys_mem (ts.map transactionKey)
      (transactionKey t)).mpr (List.mem_map_of_mem transactionKey ht))

/-- Witness for C10: merging the 3-share and 5-share lots conserves the
8 input shares. -/
theorem group_transactions_shares_conserved_witness :
    group_transactions [l6a, l6b] = Except.ok [m6] ∧
    ([m6].map (·.num_shares)).sum = ([l6a, l6b].map (·.num_shares)).sum :=
  ⟨group_merge_eval,
    group_transactions_shares_conserved [l6a, l6b] [m6] group_merge_eval⟩

/-- A four-day excerpt of the exchange-rate file in its most-recent-first
row order: Monday (day 3) with a published rate 1.1, the weekend (days 2
and 1) reported as absent, Friday (day 0) with a published rate 1. -/
def rows4 : List (ℤ × RateEntry) :=
  [(3, RateEntry.val (11/10)), (2, RateEntry.dash), (1, RateEntry.dash),
    (0, RateEntry.val 1)]

/-- Counterexample for C4: on the most-recent-first row order of the source
data file (the source comments that a `-` is replaced by "the last known
value"), the loader gives the absent Saturday (day 1) the preceding Friday
rate 1 — the row below it — and not the following Monday rate 1.1 that the
claimed calendar-backward fill prescribes. -/
theorem bfill_counterexample :
    getRate rows4 1 = some 1 ∧
    specNextLaterRate rows4 1 = some (11/10) ∧
    (1 : ℚ) ≠ 11/10 := by
  refine ⟨?_, ?_, by norm_num⟩
  · norm_num [getRate, rows4, load_exchange_rate_data, bfillEntries,
      nextValidEntry, entriesToRates, rateLookup, List.lookup]
    rfl
  · norm_num [specNextLaterRate, rows4, List.filterMap]

/-- C4 amended: the gap fill of the loader is positional, not calendar
directed: every absent (`-`) cell receives the next published value that
appears later in the file's row order (and is left absent when no later
row has one); which calendar side of the gap that is depends on the file's
sort order. -/
theorem bfill_positional (l : List RateEntry) (i : ℕ) :
    (bfillEntries l)[i]? = (l[i]?).map (fun e =>
      match e with
      | RateEntry.dash =>
        (match nextValidEntry (l.drop (i+1)) with
         | some r => RateEntry.val r
         | none => RateEntry.dash)
      | RateEntry.val r => RateEntry.val r) := by
  induction l generalizing i with
  | nil => simp [bfillEntries]
  | cons e rest ih =>
    cases i with
    | zero =>
      cases e <;> simp [bfillEntries]
    | succ n =>
      cases e <;> simp [bfillEntries, ih n]
